import Mathlib

/-!
Verification of the `Period` interval algebra of `pendulum/period.py`.

Points in time are modelled as integers (minute-granularity instants); the
algebra (`intersect`, `exclude`, `exclude_from`, `_exclude`, `merge_periods`)
only compares instants, so an ordered, decidable embedding is faithful.
-/

/-- Result record of `precise_diff`: the structured calendar breakdown
{years, months, days, hours, minutes, sign}. -/
structure CalendarDiff where
  years : Int
  months : Int
  days : Int
  hours : Int
  minutes : Int
  sign : Int
deriving DecidableEq, Repr

/-- Modelled from the spec: `precise_diff` (pendulum/helpers.py, not included
under src/). Per the spec it is "a pure function (PointInTime, PointInTime) →
{years:int, months:int, days:int, hours:int, minutes:int, seconds:float}, all
magnitudes non-negative, computed on a chronologically-ordered pair", returning
a structured breakdown "{years, months, days, hours, minutes,
seconds-remainder, sign}". Instants are modelled as integer minutes with a
uniform calendar of 60-minute hours, 24-hour days, 30-day months and 12-month
years. -/
def precise_diff (d1 d2 : Int) : CalendarDiff :=
  let lo := min d1 d2
  let hi := max d1 d2
  let total : Int := hi - lo
  { years := total / 518400
  , months := total / 43200 % 12
  , days := total / 1440 % 30
  , hours := total / 60 % 24
  , minutes := total % 60
  , sign := if d2 < d1 then -1 else 1 }

/-- The `Period` data model: the fields stored by `Period.__init__`
(src/pendulum/period.py lines 40-80): `_start`, `_end`, `_absolute`,
`_invert` and `_delta`.  (`end` is a Lean keyword, hence the field name
`end_`.) -/
structure Period where
  start : Int
  end_ : Int
  absolute : Bool
  invert : Bool
  delta : CalendarDiff
deriving DecidableEq, Repr

namespace Period

/-- `Period.__init__(start, end, absolute)` (src/pendulum/period.py lines
40-80): `_invert` is set to true whenever `start > end`; additionally, when
`absolute` is true, the endpoints are swapped in that case.  `_delta` is
`precise_diff` of the stored (post-swap) pair; the type-coercion branches are
the identity on already-instant values and are dropped. -/
def init (start end_ : Int) (absolute : Bool) : Period :=
  if end_ < start then
    if absolute then
      { start := end_, end_ := start, absolute := absolute, invert := true
      , delta := precise_diff end_ start }
    else
      { start := start, end_ := end_, absolute := absolute, invert := true
      , delta := precise_diff start end_ }
  else
    { start := start, end_ := end_, absolute := absolute, invert := false
    , delta := precise_diff start end_ }

/-- `Period(start, end)` with the default `absolute=False`, as used by every
construction inside the algebra (`self.__class__(start, end)`,
`Period(start=..., end=...)`). -/
def make (start end_ : Int) : Period := init start end_ false

/-- Property `years` (line 82-84): reads `self._delta['years']`. -/
def years (self : Period) : Int := self.delta.years

/-- Property `months` (line 86-88): reads `self._delta['months']`. -/
def months (self : Period) : Int := self.delta.months

/-- Modelled from the spec: property `days` (line 94-96) reads
`self._days`, a field of `BaseInterval` (pendulum/interval.py, not included
under src/); per spec section 4.1 the decomposition accessors "read directly
from `delta`". -/
def days (self : Period) : Int := self.delta.days

/-- Property `hours` (line 102-104): reads `self._delta['hours']`. -/
def hours (self : Period) : Int := self.delta.hours

/-- Property `minutes` (line 106-108): reads `self._delta['minutes']`. -/
def minutes (self : Period) : Int := self.delta.minutes

/-- `Period._getstate` (lines 425-433): returns `(start, end, absolute)`,
swapping the two endpoints back when `_invert and _absolute`. -/
def _getstate (self : Period) : Int × Int × Bool :=
  if self.invert ∧ self.absolute then
    (self.end_, self.start, self.absolute)
  else
    (self.start, self.end_, self.absolute)

/-- One iteration of the `for period in periods` loop of `Period.intersect`
(lines 221-227) on the running state `(start, end, has_intersection)`:
a period wholly disjoint from the running window is skipped (`continue`),
otherwise the window is narrowed and the flag set. -/
def intersectStep (acc : Int × Int × Bool) (period : Period) : Int × Int × Bool :=
  let s := acc.1
  let e := acc.2.1
  if period.end_ < s ∨ e < period.start then acc
  else (max s period.start, min e period.end_, true)

/-- `Period.intersect(self, *periods)` (lines 210-232). -/
def intersect (self : Period) (periods : List Period) : Option Period :=
  let r := periods.foldl intersectStep (self.start, self.end_, false)
  if r.2.2 then some (make r.1 r.2.1) else none

/-- `Period._exclude(self, other)` (lines 290-331): removes `other` from
`self`; `none` models the Python `return None` ("do not add it"). -/
def _exclude (self other : Period) : Option (List Period) :=
  if self.start < other.end_ then
    if other.start ≤ self.start then
      if other.end_ < self.end_ then some [make other.end_ self.end_]
      else none
    else if other.start < self.end_ then
      if other.end_ < self.end_ then
        some [make self.start other.start, make other.end_ self.end_]
      else some [make self.start other.start]
    else some [self]
  else some [self]

/-- `Period.exclude_from(self, *periods)` (lines 270-288): excludes `self`
from each listed period independently, skipping `None` results. -/
def exclude_from (self : Period) (periods : List Period) : List Period :=
  periods.foldl
    (fun acc period =>
      match period._exclude self with
      | none => acc
      | some excluded => acc ++ excluded)
    []

/-- `Period.exclude(self, *periods)` (lines 242-268), modelled exactly,
including its failure modes: with a single fully-covering exclusion the
Python code executes `return excluded_periods` with `excluded_periods =
None` (modelled as `Except.ok none`); with further exclusions remaining it
executes `for excluded_period in None`, raising a `TypeError` (modelled as
`Except.error`).  The `or []` guard on the recursive call maps `ok none`
to `[]`. -/
def exclude (self : Period) (periods : List Period) :
    Except String (Option (List Period)) :=
  match periods with
  | [] => Except.ok (some [self])
  | period :: remaining =>
    match self._exclude period with
    | none =>
      if remaining = [] then Except.ok none
      else Except.error "TypeError: NoneType object is not iterable"
    | some excluded_periods =>
      if remaining = [] then Except.ok (some excluded_periods)
      else do
        let results ← excluded_periods.mapM (fun p => exclude p remaining)
        pure (some (results.foldl (fun acc r => acc ++ r.getD []) []))
termination_by periods.length
decreasing_by simp_wf

/-- `Period.__lt__` (lines 420-423): lexicographic on `(start, end)`. -/
def lt (self other : Period) : Prop :=
  if self.start = other.start then self.end_ < other.end_
  else self.start < other.start

instance : DecidableRel lt := fun a b => by
  unfold lt; infer_instance

/-- The non-strict order `¬ other < self` under which Python's stable
`list.sort()` leaves the list pairwise ordered; spelled out for `__lt__`'s
lexicographic comparison. -/
def le (self other : Period) : Prop :=
  self.start < other.start ∨ (self.start = other.start ∧ self.end_ ≤ other.end_)

instance : DecidableRel le := fun a b => by
  unfold le; infer_instance

/-- The scan loop of `Period.merge_periods` (lines 350-368) over the sorted
tail, carrying the running merged `period`. -/
def mergeLoop (period : Period) : List Period → List Period
  | [] => [period]
  | next :: rest =>
    if next.start ≤ period.end_ then
      if period.end_ < next.end_ then mergeLoop (make period.start next.end_) rest
      else mergeLoop period rest
    else period :: mergeLoop next rest

/-- `Period.merge_periods(*periods)` (lines 338-369): sort, then scan.
Python's `list.sort()` is a stable sort driven by `__lt__`; a stable sort's
output is unique, so it is modelled by insertion sort with the matching
non-strict order `le`. -/
def merge_periods (periods : List Period) : List Period :=
  match List.insertionSort le periods with
  | [] => []
  | period :: rest => mergeLoop period rest

end Period

/-- A point `x` lies in the chronological span of some period of `ps`
(closed interval between the unordered chronological bounds, the bounds
used by the spec's containment and union language). -/
def covered (x : Int) (ps : List Period) : Prop :=
  ∃ p ∈ ps, min p.start p.end_ ≤ x ∧ x ≤ max p.start p.end_

instance (x : Int) (ps : List Period) : Decidable (covered x ps) := by
  unfold covered; infer_instance

/-- Two periods chronologically overlap: their closed chronological spans
share a point. -/
def overlaps (a b : Period) : Prop :=
  min a.start a.end_ ≤ max b.start b.end_ ∧ min b.start b.end_ ≤ max a.start a.end_

instance : DecidableRel overlaps := fun a b => by
  unfold overlaps; infer_instance

namespace Period

@[simp] theorem make_start (a b : Int) : (Period.make a b).start = a := by
  unfold make init; split <;> simp

@[simp] theorem make_end (a b : Int) : (Period.make a b).end_ = b := by
  unfold make init; split <;> simp

@[simp] theorem make_absolute (a b : Int) : (Period.make a b).absolute = false := by
  unfold make init; split <;> simp

end Period

/-- C2 counterexample: `Period(2, 1, absolute=True)` stores `invert = true`,
not `invert = false` as the claim states — `__init__` sets `_invert` before
the absolute-driven swap and never resets it. -/
theorem C2_counterexample : (Period.init 2 1 true).invert = true := by decide

/-- C2 (amended): a Period constructed with `absolute = true` always stores a
chronologically ordered pair (`start ≤ end`, with `start = min` and
`end = max` of the supplied endpoints, i.e. supplied `start > end` causes a
swap), but `invert` is not always false: it is true exactly when the supplied
`start > end`. -/
theorem C2_absolute_normalizes (s e : Int) :
    (Period.init s e true).start ≤ (Period.init s e true).end_ ∧
    (Period.init s e true).start = min s e ∧
    (Period.init s e true).end_ = max s e ∧
    (Period.init s e true).invert = decide (e < s) := by
  unfold Period.init
  by_cases h : e < s <;> simp [h] <;> omega

/-- C7: reconstructing a Period from its `_getstate` triple
`(start, end, absolute)` yields a Period equal to the original in `start`,
`end`, `absolute` and `invert` (indeed equal outright, and so in all four
fields). -/
theorem C7_getstate_roundtrip (s e : Int) (absolute : Bool) :
    (Period.init ((Period.init s e absolute)._getstate).1
        ((Period.init s e absolute)._getstate).2.1
        ((Period.init s e absolute)._getstate).2.2).start =
      (Period.init s e absolute).start ∧
    (Period.init ((Period.init s e absolute)._getstate).1
        ((Period.init s e absolute)._getstate).2.1
        ((Period.init s e absolute)._getstate).2.2).end_ =
      (Period.init s e absolute).end_ ∧
    (Period.init ((Period.init s e absolute)._getstate).1
        ((Period.init s e absolute)._getstate).2.1
        ((Period.init s e absolute)._getstate).2.2).absolute =
      (Period.init s e absolute).absolute ∧
    (Period.init ((Period.init s e absolute)._getstate).1
        ((Period.init s e absolute)._getstate).2.1
        ((Period.init s e absolute)._getstate).2.2).invert =
      (Period.init s e absolute).invert := by
  have H : Period.init ((Period.init s e absolute)._getstate).1
      ((Period.init s e absolute)._getstate).2.1
      ((Period.init s e absolute)._getstate).2.2 = Period.init s e absolute := by
    by_cases h : e < s <;> cases absolute <;>
      simp [Period.init, Period._getstate, h]
  exact ⟨by rw [H], by rw [H], by rw [H], by rw [H]⟩

/-- C10: intersecting with an empty sequence of other periods returns the
`None` sentinel, never the period itself — `has_intersection` starts false
and is only set by an overlapping argument. -/
theorem C10_vacuous_intersect (p : Period) :
    Period.intersect p [] = none ∧ Period.intersect p [] ≠ some p := by
  refine ⟨rfl, ?_⟩
  intro h
  simp [Period.intersect] at h

/-- C6: the magnitude fields of the stored delta, as read by the accessors
`years`, `months`, `days`, `hours`, `minutes`, are non-negative for every
construction (any endpoint order, any `absolute` flag), and agree with the
breakdown computed between the chronologically earlier and later endpoint. -/
theorem C6_delta_nonneg (s e : Int) (absolute : Bool) :
    (0 ≤ (Period.init s e absolute).years ∧
      0 ≤ (Period.init s e absolute).months ∧
      0 ≤ (Period.init s e absolute).days ∧
      0 ≤ (Period.init s e absolute).hours ∧
      0 ≤ (Period.init s e absolute).minutes) ∧
    (Period.init s e absolute).years = (precise_diff (min s e) (max s e)).years ∧
    (Period.init s e absolute).months = (precise_diff (min s e) (max s e)).months ∧
    (Period.init s e absolute).days = (precise_diff (min s e) (max s e)).days ∧
    (Period.init s e absolute).hours = (precise_diff (min s e) (max s e)).hours ∧
    (Period.init s e absolute).minutes = (precise_diff (min s e) (max s e)).minutes := by
  by_cases h : e < s <;> cases absolute <;>
    simp [Period.init, Period.years, Period.months, Period.days, Period.hours,
      Period.minutes, precise_diff, h] <;>
    omega

theorem exclude_from_foldl (self : Period) :
    ∀ (ps acc : List Period),
      ps.foldl
        (fun acc period =>
          match period._exclude self with
          | none => acc
          | some excluded => acc ++ excluded)
        acc
      = acc ++ (ps.map (fun p => (p._exclude self).getD [])).flatten := by
  intro ps
  induction ps with
  | nil => intro acc; simp
  | cons p ps ih =>
    intro acc
    rw [List.foldl_cons, ih]
    cases h : p._exclude self <;> simp [h]

/-- C9: `exclude_from` excludes `self` from each listed period independently
(each input period is diffed against `self` alone) and concatenates the
per-period results in input order, fully-consumed periods contributing
nothing; in particular excluding `Period(4,5)` from
`[Period(3,6), Period(9,12)]` yields `[Period(3,4), Period(5,6), Period(9,12)]`. -/
theorem C9_exclude_from (self : Period) (ps : List Period) :
    Period.exclude_from self ps = (ps.map (fun p => (p._exclude self).getD [])).flatten ∧
    Period.exclude_from (Period.make 4 5) [Period.make 3 6, Period.make 9 12] =
      [Period.make 3 4, Period.make 5 6, Period.make 9 12] := by
  refine ⟨?_, by decide⟩
  unfold Period.exclude_from
  rw [exclude_from_foldl]
  simp

/-- C3: `_exclude` follows the claimed ordered case analysis on proper
periods: unchanged when `other` ends at or before `this` starts; fully
consumed (the distinct `None` signal) when `other` covers `this`; a single
tail remainder when `other` covers the head only; a single head remainder
when `other` covers the tail only; two remainders when `other` is strictly
interior.  Boundary touches count as covering that side: every returned
remainder has strictly positive width. -/
theorem C3__exclude_cases (t o : Period) (ht : t.start < t.end_) (ho : o.start < o.end_) :
    (o.end_ ≤ t.start → t._exclude o = some [t]) ∧
    (t.start < o.end_ → o.start ≤ t.start → t.end_ ≤ o.end_ → t._exclude o = none) ∧
    (t.start < o.end_ → o.start ≤ t.start → o.end_ < t.end_ →
      t._exclude o = some [Period.make o.end_ t.end_]) ∧
    (t.start < o.start → o.start < t.end_ → t.end_ ≤ o.end_ →
      t._exclude o = some [Period.make t.start o.start]) ∧
    (t.start < o.start → o.end_ < t.end_ →
      t._exclude o = some [Period.make t.start o.start, Period.make o.end_ t.end_]) ∧
    (∀ l, t._exclude o = some l → ∀ q ∈ l, q.start < q.end_) := by
  refine ⟨?_, ?_, ?_, ?_, ?_, ?_⟩
  · intro h
    unfold Period._exclude
    rw [if_neg (by omega)]
  · intro h1 h2 h3
    unfold Period._exclude
    rw [if_pos h1, if_pos h2, if_neg (by omega)]
  · intro h1 h2 h3
    unfold Period._exclude
    rw [if_pos h1, if_pos h2, if_pos h3]
  · intro h1 h2 h3
    unfold Period._exclude
    rw [if_pos (by omega), if_neg (by omega), if_pos h2, if_neg (by omega)]
  · intro h1 h2
    unfold Period._exclude
    rw [if_pos (by omega), if_neg (by omega), if_pos (by omega), if_pos h2]
  · intro l hl q hq
    unfold Period._exclude at hl
    split_ifs at hl with h1 h2 h3 h4 h5
    all_goals injection hl with hl'
    all_goals subst hl'
    all_goals simp at hq
    all_goals first
      | ((rcases hq with rfl | rfl) <;> simp <;> omega)
      | (subst hq; simp; omega)
      | (subst hq; omega)

theorem C3_witness :
    Period._exclude (Period.make 3 6) (Period.make 1 4) = some [Period.make 4 6] :=
  (C3__exclude_cases (Period.make 3 6) (Period.make 1 4) (by decide) (by decide)).2.2.1
    (by decide) (by decide) (by decide)

/-- C5 (code bug): `exclude` does not always return a list.  When the single
exclusion fully consumes the period, `exclude` returns the `None` produced by
`_exclude` directly (`Except.ok none` here); when further exclusions remain it
iterates over that `None`, raising `TypeError`. -/
theorem C5_exclude_bug :
    Period.exclude (Period.make 3 6) [Period.make 1 8] = Except.ok none ∧
    Period.exclude (Period.make 3 6) [Period.make 1 8, Period.make 2 3] =
      Except.error "TypeError: NoneType object is not iterable" ∧
    Period.exclude (Period.make 3 6) [] = Except.ok (some [Period.make 3 6]) := by
  have hx : Period._exclude (Period.make 3 6) (Period.make 1 8) = none := by decide
  refine ⟨?_, ?_, ?_⟩ <;> simp [Period.exclude, hx]

theorem intersectStep_disjoint {s e : Int} {b : Bool} {p : Period}
    (h : p.end_ < s ∨ e < p.start) :
    Period.intersectStep (s, e, b) p = (s, e, b) := by
  unfold Period.intersectStep
  exact if_pos h

theorem intersectStep_overlap {s e : Int} {b : Bool} {p : Period}
    (h : ¬(p.end_ < s ∨ e < p.start)) :
    Period.intersectStep (s, e, b) p = (max s p.start, min e p.end_, true) := by
  unfold Period.intersectStep
  exact if_neg h

theorem intersect_foldl_true (ps : List Period) :
    ∀ s e : Int, (ps.foldl Period.intersectStep (s, e, true)).2.2 = true := by
  induction ps with
  | nil => intro s e; rfl
  | cons p ps ih =>
    intro s e
    rw [List.foldl_cons]
    by_cases h : p.end_ < s ∨ e < p.start
    · rw [intersectStep_disjoint h]
      exact ih s e
    · rw [intersectStep_overlap h]
      exact ih _ _

theorem intersect_foldl_false_iff (ps : List Period) :
    ∀ s e : Int,
      ((ps.foldl Period.intersectStep (s, e, false)).2.2 = false ↔
        ∀ p ∈ ps, p.end_ < s ∨ e < p.start) := by
  induction ps with
  | nil => intro s e; simp
  | cons p ps ih =>
    intro s e
    rw [List.foldl_cons]
    by_cases h : p.end_ < s ∨ e < p.start
    · rw [intersectStep_disjoint h, ih]
      simp [h]
    · rw [intersectStep_overlap h]
      simp only [intersect_foldl_true, List.mem_cons, forall_eq_or_imp]
      simp [h]

theorem intersect_foldl_window (ps : List Period) :
    ∀ (s e : Int) (b : Bool), s ≤ e → (∀ p ∈ ps, p.start ≤ p.end_) →
      s ≤ (ps.foldl Period.intersectStep (s, e, b)).1 ∧
      (ps.foldl Period.intersectStep (s, e, b)).1 ≤
        (ps.foldl Period.intersectStep (s, e, b)).2.1 ∧
      (ps.foldl Period.intersectStep (s, e, b)).2.1 ≤ e := by
  induction ps with
  | nil => intro s e b hse _; exact ⟨le_refl s, hse, le_refl e⟩
  | cons p ps ih =>
    intro s e b hse hps
    rw [List.foldl_cons]
    have hp : p.start ≤ p.end_ := hps p (by simp)
    have hps' : ∀ q ∈ ps, q.start ≤ q.end_ := fun q hq => hps q (by simp [hq])
    by_cases h : p.end_ < s ∨ e < p.start
    · rw [intersectStep_disjoint h]
      exact ih s e b hse hps'
    · rw [intersectStep_overlap h]
      have h1 : max s p.start ≤ min e p.end_ := by omega
      have h2 := ih (max s p.start) (min e p.end_) true h1 hps'
      refine ⟨by omega, h2.2.1, by omega⟩

/-- C1 counterexample: an input period wholly disjoint from the running
window does not make the whole intersection fail — it is skipped.
`Period(10,20)` is disjoint from the running window (its start exceeds even
the initial end 5), yet `intersect(Period(1,5), Period(3,8), Period(10,20))`
returns `Period(3,5)` instead of the claimed `None`. -/
theorem C1_counterexample :
    Period.intersect (Period.make 1 5) [Period.make 3 8, Period.make 10 20] =
      some (Period.make 3 5) ∧
    (Period.make 1 5).end_ < (Period.make 10 20).start := by decide

/-- C1 (amended): `intersect` iteratively narrows the running window by
`start = max(start, other.start)`, `end = min(end, other.end)` over the
inputs that overlap the running window; an input wholly disjoint from the
running window is skipped, and `None` is returned exactly when no input
overlapped — equivalently, when every input is wholly disjoint from `self`'s
own window.  When a result is produced on proper inputs it is the Period
over the final narrowed window, lying inside `self`'s window.  The claim's
two concrete examples hold. -/
theorem C1_intersect (self : Period) (ps : List Period) :
    (Period.intersect self ps = none ↔
      ∀ p ∈ ps, p.end_ < self.start ∨ self.end_ < p.start) ∧
    (self.start ≤ self.end_ → (∀ p ∈ ps, p.start ≤ p.end_) →
      ∀ r, Period.intersect self ps = some r →
        self.start ≤ r.start ∧ r.start ≤ r.end_ ∧ r.end_ ≤ self.end_ ∧
          r.absolute = false) ∧
    Period.intersect (Period.make 1 5) [Period.make 3 8] = some (Period.make 3 5) ∧
    Period.intersect (Period.make 1 2) [Period.make 5 8] = none := by
  refine ⟨?_, ?_, by decide, by decide⟩
  · have hio : Period.intersect self ps = none ↔
        (ps.foldl Period.intersectStep (self.start, self.end_, false)).2.2 = false := by
      simp only [Period.intersect]
      cases hb : (ps.foldl Period.intersectStep (self.start, self.end_, false)).2.2 <;>
        simp [hb]
    rw [hio, intersect_foldl_false_iff]
  · intro hse hps r hr
    simp only [Period.intersect] at hr
    split at hr
    · injection hr with hr'
      subst hr'
      have hw := intersect_foldl_window ps self.start self.end_ false hse hps
      simp only [Period.make_start, Period.make_end, Period.make_absolute]
      exact ⟨hw.1, hw.2.1, hw.2.2, trivial⟩
    · exact Option.noConfusion hr

theorem C1_witness :
    (Period.make 1 5).start ≤ (Period.make 3 5).start ∧
    (Period.make 3 5).start ≤ (Period.make 3 5).end_ ∧
    (Period.make 3 5).end_ ≤ (Period.make 1 5).end_ ∧
    (Period.make 3 5).absolute = false :=
  (C1_intersect (Period.make 1 5) [Period.make 3 8]).2.1 (by decide) (by decide)
    (Period.make 3 5) (by decide)

instance : IsTotal Period Period.le :=
  ⟨fun a b => by unfold Period.le; omega⟩

instance : IsTrans Period Period.le :=
  ⟨fun a b c hab hbc => by unfold Period.le at *; omega⟩

theorem covered_cons (x : Int) (p : Period) (l : List Period) :
    covered x (p :: l) ↔
      (min p.start p.end_ ≤ x ∧ x ≤ max p.start p.end_) ∨ covered x l := by
  unfold covered
  simp

theorem covered_perm {l l' : List Period} (h : l.Perm l') (x : Int) :
    covered x l ↔ covered x l' := by
  unfold covered
  constructor
  · rintro ⟨p, hp, hx⟩
    exact ⟨p, h.subset hp, hx⟩
  · rintro ⟨p, hp, hx⟩
    exact ⟨p, h.symm.subset hp, hx⟩

theorem mergeLoop_chain (rest : List Period) :
    ∀ period : Period, List.Chain' Period.le (period :: rest) →
      ∃ hd t, Period.mergeLoop period rest = hd :: t ∧
        hd.start = period.start ∧ period.end_ ≤ hd.end_ ∧
        List.Chain' (fun a b => a.end_ < b.start) (hd :: t) ∧
        List.Chain' Period.le (hd :: t) := by
  induction rest with
  | nil =>
    intro period _
    exact ⟨period, [], rfl, rfl, le_refl _, List.chain'_singleton _,
      List.chain'_singleton _⟩
  | cons next rest ih =>
    intro period hc
    have hpn : Period.le period next := (List.chain'_cons.mp hc).1
    have hc' : List.Chain' Period.le (next :: rest) := (List.chain'_cons.mp hc).2
    simp only [Period.mergeLoop]
    by_cases h1 : next.start ≤ period.end_
    · rw [if_pos h1]
      by_cases h2 : period.end_ < next.end_
      · rw [if_pos h2]
        have hchain : List.Chain' Period.le (Period.make period.start next.end_ :: rest) := by
          refine List.chain'_cons'.mpr ⟨?_, (List.chain'_cons'.mp hc').2⟩
          intro y hy
          have hny := (List.chain'_cons'.mp hc').1 y hy
          unfold Period.le at *
          simp only [Period.make_start, Period.make_end]
          omega
        obtain ⟨hd, t, heq, hhs, hhe, hsep, hle⟩ :=
          ih (Period.make period.start next.end_) hchain
        refine ⟨hd, t, heq, ?_, ?_, hsep, hle⟩
        · rw [Period.make_start] at hhs
          exact hhs
        · rw [Period.make_end] at hhe
          omega
      · rw [if_neg h2]
        have hchain : List.Chain' Period.le (period :: rest) := by
          refine List.chain'_cons'.mpr ⟨?_, (List.chain'_cons'.mp hc').2⟩
          intro y hy
          have hny := (List.chain'_cons'.mp hc').1 y hy
          unfold Period.le at *
          omega
        exact ih period hchain
    · rw [if_neg h1]
      obtain ⟨hd, t, heq, hhs, hhe, hsep, hle⟩ := ih next hc'
      refine ⟨period, hd :: t, by rw [heq], rfl, le_refl _, ?_, ?_⟩
      · refine List.chain'_cons.mpr ⟨?_, hsep⟩
        rw [hhs]
        omega
      · refine List.chain'_cons.mpr ⟨?_, hle⟩
        unfold Period.le at *
        omega

theorem mergeLoop_sep_id (rest : List Period) :
    ∀ period : Period,
      List.Chain' (fun a b => a.end_ < b.start) (period :: rest) →
      Period.mergeLoop period rest = period :: rest := by
  induction rest with
  | nil => intro period _; rfl
  | cons next rest ih =>
    intro period hc
    have h1 : period.end_ < next.start := (List.chain'_cons.mp hc).1
    simp only [Period.mergeLoop]
    rw [if_neg (by omega)]
    rw [ih next (List.chain'_cons.mp hc).2]

theorem mergeLoop_proper (rest : List Period) :
    ∀ period : Period, period.start ≤ period.end_ →
      (∀ q ∈ rest, q.start ≤ q.end_) →
      ∀ q ∈ Period.mergeLoop period rest, q.start ≤ q.end_ := by
  induction rest with
  | nil =>
    intro period hp _ q hq
    simp only [Period.mergeLoop, List.mem_singleton] at hq
    subst hq
    exact hp
  | cons next rest ih =>
    intro period hp hrest q hq
    have hnext : next.start ≤ next.end_ := hrest next (by simp)
    have hrest' : ∀ r ∈ rest, r.start ≤ r.end_ := fun r hr => hrest r (by simp [hr])
    simp only [Period.mergeLoop] at hq
    by_cases h1 : next.start ≤ period.end_
    · rw [if_pos h1] at hq
      by_cases h2 : period.end_ < next.end_
      · rw [if_pos h2] at hq
        exact ih (Period.make period.start next.end_) (by simp; omega) hrest' q hq
      · rw [if_neg h2] at hq
        exact ih period hp hrest' q hq
    · rw [if_neg h1] at hq
      rcases List.mem_cons.mp hq with rfl | hq'
      · exact hp
      · exact ih next hnext hrest' q hq'

theorem mergeLoop_covered (rest : List Period) :
    ∀ period : Period, period.start ≤ period.end_ →
      (∀ q ∈ rest, q.start ≤ q.end_) →
      List.Pairwise (fun a b => a.start ≤ b.start) (period :: rest) →
      ∀ x, covered x (Period.mergeLoop period rest) ↔ covered x (period :: rest) := by
  induction rest with
  | nil => intro period _ _ _ x; exact Iff.rfl
  | cons next rest ih =>
    intro period hp hrest hpair x
    have hnext : next.start ≤ next.end_ := hrest next (by simp)
    have hrest' : ∀ q ∈ rest, q.start ≤ q.end_ := fun q hq => hrest q (by simp [hq])
    have hpn : period.start ≤ next.start := (List.pairwise_cons.mp hpair).1 next (by simp)
    simp only [Period.mergeLoop]
    by_cases h1 : next.start ≤ period.end_
    · rw [if_pos h1]
      by_cases h2 : period.end_ < next.end_
      · rw [if_pos h2]
        have hpair' : List.Pairwise (fun a b => a.start ≤ b.start)
            (Period.make period.start next.end_ :: rest) := by
          refine List.pairwise_cons.mpr ⟨?_, ?_⟩
          · intro q hq
            rw [Period.make_start]
            exact (List.pairwise_cons.mp hpair).1 q (by simp [hq])
          · exact (List.pairwise_cons.mp (List.pairwise_cons.mp hpair).2).2
        rw [ih (Period.make period.start next.end_) (by simp; omega) hrest' hpair' x]
        rw [covered_cons, covered_cons, covered_cons]
        simp only [Period.make_start, Period.make_end]
        constructor
        · rintro (h | h)
          · by_cases hx : x ≤ period.end_
            · left; omega
            · right; left; omega
          · right; right; exact h
        · rintro (h | h | h)
          · left; omega
          · left; omega
          · right; exact h
      · rw [if_neg h2]
        have hpair' : List.Pairwise (fun a b => a.start ≤ b.start) (period :: rest) := by
          refine List.pairwise_cons.mpr ⟨?_, ?_⟩
          · intro q hq
            exact (List.pairwise_cons.mp hpair).1 q (by simp [hq])
          · exact (List.pairwise_cons.mp (List.pairwise_cons.mp hpair).2).2
        rw [ih period hp hrest' hpair' x]
        rw [covered_cons, covered_cons, covered_cons]
        constructor
        · rintro (h | h)
          · left; exact h
          · right; right; exact h
        · rintro (h | h | h)
          · left; exact h
          · left; omega
          · right; exact h
    · rw [if_neg h1]
      have hpair' : List.Pairwise (fun a b => a.start ≤ b.start) (next :: rest) :=
        (List.pairwise_cons.mp hpair).2
      rw [covered_cons x period, covered_cons x period]
      exact or_congr Iff.rfl (ih next hnext hrest' hpair' x)

theorem chain_sep_head (l : List Period) :
    ∀ a : Period, (∀ q ∈ l, q.start ≤ q.end_) →
      List.Chain' (fun x y => x.end_ < y.start) (a :: l) →
      ∀ b ∈ l, a.end_ < b.start := by
  induction l with
  | nil => intro a _ _ b hb; cases hb
  | cons c l ih =>
    intro a hproper hc b hb
    have h1 : a.end_ < c.start := (List.chain'_cons.mp hc).1
    rcases List.mem_cons.mp hb with rfl | hb'
    · exact h1
    · have hcp : c.start ≤ c.end_ := hproper c (by simp)
      have h2 := ih c (fun q hq => hproper q (by simp [hq])) (List.chain'_cons.mp hc).2 b hb'
      omega

theorem chain_sep_pairwise (l : List Period) :
    (∀ q ∈ l, q.start ≤ q.end_) →
    List.Chain' (fun x y => x.end_ < y.start) l →
    List.Pairwise (fun x y => x.end_ < y.start) l := by
  induction l with
  | nil => intro _ _; exact List.Pairwise.nil
  | cons a l ih =>
    intro hproper hc
    refine List.pairwise_cons.mpr
      ⟨chain_sep_head l a (fun q hq => hproper q (by simp [hq])) hc,
        ih (fun q hq => hproper q (by simp [hq])) ?_⟩
    rcases l with _ | ⟨b, l'⟩
    · exact List.chain'_nil
    · exact (List.chain'_cons.mp hc).2

/-- C4 counterexample: for an inverted input Period (stored `start > end`),
`merge_periods` does not preserve the chronological union.  `Period(5,-3)`
spans `[-3,5]` chronologically, but the sort-and-scan loop compares raw
`start`/`end` fields, absorbs it into `Period(0,10)` and loses the
chronological point `-3`, so the union of the outputs differs from the union
of the inputs. -/
theorem C4_counterexample :
    Period.merge_periods [Period.make 0 10, Period.make 5 (-3)] = [Period.make 0 10] ∧
    covered (-3) [Period.make 0 10, Period.make 5 (-3)] ∧
    ¬ covered (-3) (Period.merge_periods [Period.make 0 10, Period.make 5 (-3)]) := by
  decide

/-- C4 (amended): on periods whose stored pair is chronologically ordered
(`start ≤ end`, i.e. non-inverted Periods), `merge_periods` returns
non-overlapping periods covering exactly the same chronological union as the
inputs; zero inputs yield the empty sequence; and the claim's concrete
example evaluates as stated. -/
theorem C4_merge_periods (ps : List Period) (hps : ∀ p ∈ ps, p.start ≤ p.end_) :
    (∀ x : Int, covered x (Period.merge_periods ps) ↔ covered x ps) ∧
    List.Pairwise (fun a b => ¬ overlaps a b) (Period.merge_periods ps) ∧
    Period.merge_periods [] = [] ∧
    Period.merge_periods [Period.make 9 12, Period.make 3 6, Period.make 5 7] =
      [Period.make 3 7, Period.make 9 12] := by
  have hperm := List.perm_insertionSort Period.le ps
  have hsorted := List.sorted_insertionSort Period.le ps
  rcases hs : List.insertionSort Period.le ps with _ | ⟨p, rest⟩
  · rw [hs] at hperm
    have hnil : ps = [] := hperm.symm.eq_nil
    subst hnil
    exact ⟨fun x => Iff.rfl, List.Pairwise.nil, rfl, by decide⟩
  · rw [hs] at hperm hsorted
    have hchain : List.Chain' Period.le (p :: rest) := hsorted.chain'
    have hproper : ∀ q ∈ p :: rest, q.start ≤ q.end_ :=
      fun q hq => hps q (hperm.subset hq)
    have hpairstart : List.Pairwise (fun a b => a.start ≤ b.start) (p :: rest) :=
      hsorted.imp (fun hab => by unfold Period.le at hab; omega)
    have hmerge : Period.merge_periods ps = Period.mergeLoop p rest := by
      unfold Period.merge_periods
      rw [hs]
    obtain ⟨hd, t, heq, hhs, hhe, hsep, hle⟩ := mergeLoop_chain rest p hchain
    have hproperout : ∀ q ∈ Period.mergeLoop p rest, q.start ≤ q.end_ :=
      mergeLoop_proper rest p (hproper p (by simp)) (fun q hq => hproper q (by simp [hq]))
    refine ⟨?_, ?_, rfl, by decide⟩
    · intro x
      rw [hmerge,
        mergeLoop_covered rest p (hproper p (by simp))
          (fun q hq => hproper q (by simp [hq])) hpairstart x]
      exact covered_perm hperm x
    · rw [hmerge, heq]
      rw [heq] at hproperout
      have hpw := chain_sep_pairwise (hd :: t) hproperout hsep
      exact List.Pairwise.imp_of_mem
        (fun {a b} ha hb hab => by
          have hpa := hproperout a ha
          have hpb := hproperout b hb
          unfold overlaps
          omega)
        hpw

theorem C4_witness :
    covered 5 (Period.merge_periods [Period.make 9 12, Period.make 3 6, Period.make 5 7]) ↔
      covered 5 [Period.make 9 12, Period.make 3 6, Period.make 5 7] :=
  (C4_merge_periods [Period.make 9 12, Period.make 3 6, Period.make 5 7] (by decide)).1 5

/-- C8: `merge_periods` is idempotent — merging the output of
`merge_periods` again returns it unchanged, for every finite collection of
Periods. -/
theorem C8_merge_idempotent (ps : List Period) :
    Period.merge_periods (Period.merge_periods ps) = Period.merge_periods ps := by
  rcases hs : List.insertionSort Period.le ps with _ | ⟨p, rest⟩
  · have h1 : Period.merge_periods ps = [] := by
      unfold Period.merge_periods
      rw [hs]
    rw [h1]
    rfl
  · have hsorted := List.sorted_insertionSort Period.le ps
    rw [hs] at hsorted
    have hchain : List.Chain' Period.le (p :: rest) := hsorted.chain'
    have hmerge : Period.merge_periods ps = Period.mergeLoop p rest := by
      unfold Period.merge_periods
      rw [hs]
    obtain ⟨hd, t, heq, hhs, hhe, hsep, hle⟩ := mergeLoop_chain rest p hchain
    rw [hmerge, heq]
    have hsortht : List.Sorted Period.le (hd :: t) := by
      rw [List.chain'_iff_pairwise] at hle
      exact hle
    unfold Period.merge_periods
    rw [hsortht.insertionSort_eq]
    exact mergeLoop_sep_id t hd hsep

example : Period.intersect (Period.make 1 5) [Period.make 3 8] = some (Period.make 3 5) := by decide
example : Period.intersect (Period.make 1 2) [Period.make 5 8] = none := by decide
example : Period._exclude (Period.make 3 6) (Period.make 1 4) = some [Period.make 4 6] := by decide
example : Period.merge_periods [Period.make 9 12, Period.make 3 6, Period.make 5 7] =
    [Period.make 3 7, Period.make 9 12] := by decide
example : Period.exclude_from (Period.make 4 5) [Period.make 3 6, Period.make 9 12] =
    [Period.make 3 4, Period.make 5 6, Period.make 9 12] := by decide
